import Mathlib

/-!
Verification of the vehicle-routing optimization core (`vrp`): the
NearestNeighborSolver construction heuristic and the RuinAndRecreateSolver
metaheuristic, as implemented in `src/solve/nearest_neighbor.rs` and
`src/solve/ruin_and_recreate.rs`.

Embedding conventions:
* Costs (`f64` in the source) are modelled by the inductive `Fl`, which keeps
  exactly the structure the solver code observes: a linearly ordered set of
  finite values (rationals), two infinities and a NaN, with the `OrderedFloat`
  total order used by `min_by` and the primitive partial `<` used by the
  acceptance test.
* The pseudorandom generator (`SmallRng` seeded with a fixed seed) is modelled
  by an arbitrary stream `g : Nat → Nat` together with a cursor `k`; each
  `choose` call consumes one draw.  All universal theorems quantify over every
  stream, so they hold in particular for the stream realized by `SmallRng`.
* The unvisited-stop `HashSet` of the NearestNeighborSolver is modelled by its
  iteration order, an explicit list `order`; `std::collections::HashSet`
  iteration order is randomized per process, so no particular order may be
  assumed, and removal preserves the relative order of remaining elements.
-/

/-- Cost values as observed by the solvers: the source computes costs as `f64`
and only ever compares them (via `OrderedFloat::cmp` in `min_by`, and via the
primitive `<` in the acceptance test) or tests `is_finite`.  `Fl` models that
observable structure with rational finite values. -/
inductive Fl where
  | negInf : Fl
  | fin : ℚ → Fl
  | posInf : Fl
  | nan : Fl
deriving DecidableEq

/-- `f64::is_finite`: true exactly on finite values. -/
def Fl.isFinite : Fl → Bool
  | .fin _ => true
  | _ => false

/-- The strict total order of `OrderedFloat` (used by `min_by` /
`min_by_key`): `-inf < finite < +inf < NaN`. -/
def Fl.ordLt : Fl → Fl → Bool
  | .negInf, .negInf => false
  | .negInf, _ => true
  | .fin _, .negInf => false
  | .fin a, .fin b => a < b
  | .fin _, _ => true
  | .posInf, .nan => true
  | .posInf, _ => false
  | .nan, _ => false

/-- The non-strict companion of `Fl.ordLt`. -/
def Fl.ordLe : Fl → Fl → Bool
  | .negInf, _ => true
  | .fin _, .negInf => false
  | .fin a, .fin b => a ≤ b
  | .fin _, _ => true
  | .posInf, .negInf => false
  | .posInf, .fin _ => false
  | .posInf, _ => true
  | .nan, .nan => true
  | .nan, _ => false

/-- Rust's primitive `<` on `f64`: any comparison involving NaN is false;
otherwise it agrees with the `OrderedFloat` order. -/
def Fl.primLt : Fl → Fl → Bool
  | .nan, _ => false
  | _, .nan => false
  | a, b => Fl.ordLt a b

/-- A Solution is one ordered route (list of stop indices) per vehicle.
Modelled from the spec: the `Solution` value type (spec §3, §4.3) lives outside
`src/`; routes are ordered sequences of stop indices with structural
equality. -/
structure Solution where
  routes : List (List Nat)
deriving DecidableEq

/-- Modelled from the spec: `Solution::add_stop` (spec §4.3) appends the stop
to the end of the given vehicle's route, returning a new Solution. -/
def Solution.addStop (s : Solution) (vehicle stop : Nat) : Solution :=
  ⟨s.routes.set vehicle ((s.routes.getD vehicle []) ++ [stop])⟩

/-- Modelled from the spec: `Solution::has_stop` (spec §4.3) is true if any
route contains the stop. -/
def Solution.hasStop (s : Solution) (stop : Nat) : Bool :=
  s.routes.any (fun r => r.contains stop)

/-- Modelled from the spec: `Solution::ruin_route` (spec §4.3) removes the
stops at the position range `[a, b)` of the given vehicle's route, shifting
later positions down. -/
def Solution.ruinRoute (s : Solution) (vehicle a b : Nat) : Solution :=
  ⟨s.routes.set vehicle
    ((s.routes.getD vehicle []).take a ++ (s.routes.getD vehicle []).drop b)⟩

/-- Modelled from the spec: `Solution::insert_stop` (spec §4.3) inserts the
stop at a position of the vehicle's route, shifting later entries right. -/
def Solution.insertStop (s : Solution) (vehicle position stop : Nat) : Solution :=
  ⟨s.routes.set vehicle
    ((s.routes.getD vehicle []).take position ++
      stop :: (s.routes.getD vehicle []).drop position)⟩

/-- Number of occurrences of a stop index across all routes of a solution. -/
def Solution.countStop (s : Solution) (stop : Nat) : Nat :=
  (s.routes.map (fun r => r.count stop)).sum

/-- Total number of assigned stop slots of a solution. -/
def Solution.totalStops (s : Solution) : Nat :=
  (s.routes.map List.length).sum

/-- Modelled from the spec: the read-only `BaseProblem` topology view (spec
§3, §6) exposing vehicle count, stop count and location lookups; locations are
kept abstract in the type `L` and only ever fed to the Router. -/
structure Problem (L : Type) where
  vehicleCount : Nat
  stopCount : Nat
  stopLocation : Nat → L
  vehicleStartLocation : Nat → L

/-- One draw of the modelled pseudorandom source: `IteratorRandom::choose`
picks some element of the list, selected by the current stream value; it
returns `none` on an empty list.  The cursor advances by one. -/
def chooseList {α : Type} (l : List α) (g : Nat → Nat) (k : Nat) : Option α × Nat :=
  match l with
  | [] => (none, k + 1)
  | _ :: _ => (l.get? (g k % l.length), k + 1)

/-- Fold step of Rust's `Iterator::min_by_key`: keep the earlier element
unless a strictly smaller key appears (so the first minimum wins). -/
def argminGo (f : Nat → ℚ) (best : Nat) : List Nat → Nat
  | [] => best
  | y :: ys => argminGo f (if f y < f best then y else best) ys

/-- Rust's `Iterator::min_by_key` over a list of stop indices with a rational
key: `none` on the empty list, otherwise the first element with minimal key. -/
def argminQ (f : Nat → ℚ) : List Nat → Option Nat
  | [] => none
  | x :: xs => some (argminGo f x xs)

/-- One turn of the NearestNeighborSolver loop body
(`src/solve/nearest_neighbor.rs` lines 29-57): if the unvisited set is empty
the solution is returned, even mid-cycle; otherwise the reference point is the
current vehicle's last assigned stop's location (or its start location for an
empty route), the unvisited stop minimizing router distance from it is
appended to that vehicle's route and removed from the unvisited set, and the
cycle moves to the next vehicle.  `fuel` counts the remaining turns; running
it with `fuel = unvisited.length` realizes the source's unbounded `loop`,
which removes exactly one stop per turn. -/
def nnGo {L : Type} (p : Problem L) (router : L → L → ℚ) :
    Nat → Solution → List Nat → Nat → Solution
  | _, sol, [], _ => sol
  | 0, sol, _ :: _, _ => sol
  | fuel + 1, sol, u :: us, vehicleIdx =>
    let ref : L :=
      match (sol.routes.getD vehicleIdx []).getLast? with
      | some stop => p.stopLocation stop
      | none => p.vehicleStartLocation vehicleIdx
    let chosen := argminGo (fun stop => router ref (p.stopLocation stop)) u us
    nnGo p router fuel (sol.addStop vehicleIdx chosen) ((u :: us).erase chosen)
      ((vehicleIdx + 1) % p.vehicleCount)

/-- `NearestNeighborSolver::solve` (`src/solve/nearest_neighbor.rs` lines
17-58).  `order` is the iteration order in which the unvisited-stop `HashSet`
(built over `0..stop_count`) yields its elements; `std::collections::HashSet`
iteration order is randomized per process, so the solver is modelled as a
function of that order. -/
def nnSolve {L : Type} (p : Problem L) (router : L → L → ℚ) (order : List Nat) :
    Solution :=
  if p.vehicleCount = 0 then ⟨[]⟩
  else nnGo p router order.length ⟨List.replicate p.vehicleCount []⟩ order 0

/-- `MAX_STOP_REGION_SIZE` (`src/solve/ruin_and_recreate.rs` line 12). -/
def maxStopRegionSize : Nat := 6

/-- A `RouteRegion` (`src/solve/ruin_and_recreate.rs` lines 14-18): a vehicle
index together with a contiguous position range `[startPos, endPos)` of that
vehicle's route. -/
structure RouteRegion where
  vehicleIndex : Nat
  startPos : Nat
  endPos : Nat
deriving DecidableEq

/-- Helper of `vehicleOf`, scanning routes from index `i`. -/
def vehicleOfGo (stop : Nat) (i : Nat) : List (List Nat) → Option Nat
  | [] => none
  | r :: rest => if r.contains stop then some i else vehicleOfGo stop (i + 1) rest

/-- The first vehicle whose route contains the stop
(`src/solve/ruin_and_recreate.rs` lines 50-58: `find_map` over enumerated
routes). -/
def vehicleOf (s : Solution) (stop : Nat) : Option Nat :=
  vehicleOfGo stop 0 s.routes

/-- Helper of `uniqueByVehicle` carrying the set of vehicle keys already
seen. -/
def uniqueByGo (seen : List Nat) : List (Nat × Nat) → List (Nat × Nat)
  | [] => []
  | pr :: rest =>
    if pr.1 ∈ seen then uniqueByGo seen rest
    else pr :: uniqueByGo (pr.1 :: seen) rest

/-- Itertools' `unique_by` on the vehicle index
(`src/solve/ruin_and_recreate.rs` line 60): keep the first pair for each
vehicle, preserving order. -/
def uniqueByVehicle (l : List (Nat × Nat)) : List (Nat × Nat) :=
  uniqueByGo [] l

/-- The random nearest-stop edge drawn at the start of `choose_regions`
(`src/solve/ruin_and_recreate.rs` lines 40-45): `closest.enum` yields
`(other, one)` and the map produces `(*one, other)`; `choose` then picks one
pair.  The `(0, 0)` default models the `expect("stop pair")` branch, which is
unreachable whenever `closest` is nonempty. -/
def chosenPair (closest : List Nat) (g : Nat → Nat) (k : Nat) : (Nat × Nat) × Nat :=
  let l := closest.enum.map (fun pr => (pr.2, pr.1))
  match chooseList l g k with
  | (some pr, k') => (pr, k')
  | (none, k') => ((0, 0), k')

/-- `RuinAndRecreateSolver::choose_region` (`src/solve/ruin_and_recreate.rs`
lines 76-92): draw a start offset from `0..len - size` (`unwrap_or(0)` when
that range is empty) and return the region `[start, min (start + size) len)`.
The `stopIdx` parameter mirrors the unused `stop_index` argument of the
source. -/
def chooseRegion (sol : Solution) (vehicleIdx _stopIdx size : Nat)
    (g : Nat → Nat) (k : Nat) : RouteRegion × Nat :=
  let len := (sol.routes.getD vehicleIdx []).length
  let pick := chooseList (List.range (len - size)) g k
  let idx := pick.1.getD 0
  (⟨vehicleIdx, idx, min (idx + size) len⟩, pick.2)

/-- One `choose_region` call per deduplicated pair, threading the
pseudorandom cursor sequentially (the iterator `map` of
`src/solve/ruin_and_recreate.rs` lines 63-73). -/
def regionsGo (sol : Solution) (size : Nat) (g : Nat → Nat) :
    List (Nat × Nat) → Nat → List RouteRegion × Nat
  | [], k => ([], k)
  | pr :: rest, k =>
    let rk := chooseRegion sol pr.1 pr.2 size g k
    let rest' := regionsGo sol size g rest rk.2
    (rk.1 :: rest'.1, rest'.2)

/-- `RuinAndRecreateSolver::choose_regions` (`src/solve/ruin_and_recreate.rs`
lines 39-74): draw a stop pair, locate the first route holding each stop,
deduplicate by vehicle, and carve one region per remaining pair with size
budget `MAX_STOP_REGION_SIZE / pairs.len()`. -/
def chooseRegions (sol : Solution) (closest : List Nat) (g : Nat → Nat)
    (k : Nat) : List RouteRegion × Nat :=
  let pk := chosenPair closest g k
  let pairs := uniqueByVehicle
    ([pk.1.1, pk.1.2].filterMap
      (fun stop => (vehicleOf sol stop).map (fun v => (v, stop))))
  regionsGo sol (maxStopRegionSize / pairs.length) g pairs pk.2

/-- The stop indices currently stored at a region's positions in a solution
(`RuinAndRecreateSolver::region_stop_indexes`,
`src/solve/ruin_and_recreate.rs` lines 148-156). -/
def regionStopIndexes (r : RouteRegion) (sol : Solution) : List Nat :=
  (List.range' r.startPos (r.endPos - r.startPos)).map
    (fun i => (sol.routes.getD r.vehicleIndex []).getD i 0)

/-- All stops removed by the regions, read off the pre-ruin solution
(`src/solve/ruin_and_recreate.rs` lines 115-118). -/
def allRemovedStops (regions : List RouteRegion) (initSol : Solution) : List Nat :=
  regions.flatMap (fun r => regionStopIndexes r initSol)

/-- Ruining every region in order (`src/solve/ruin_and_recreate.rs` lines
101-103). -/
def ruinAll (initSol : Solution) (regions : List RouteRegion) : Solution :=
  regions.foldl (fun s r => s.ruinRoute r.vehicleIndex r.startPos r.endPos) initSol

/-- One recreate round's freshly produced candidates
(`src/solve/ruin_and_recreate.rs` lines 112-136): for every frontier solution
and every removed stop it does not yet contain, insert the stop at each
region's start position; keep the `(solution, cost)` pair only when the cost
is finite. -/
def roundCandidates (cc : Solution → Fl) (regions : List RouteRegion)
    (removed : List Nat) (keys : List Solution) : List (Solution × Fl) :=
  keys.flatMap (fun sol =>
    (removed.filter (fun stop => !(sol.hasStop stop))).flatMap (fun stop =>
      regions.filterMap (fun r =>
        let cand := sol.insertStop r.vehicleIndex r.startPos stop
        let c := cc cand
        if c.isFinite then some (cand, c) else none)))

/-- `HashMap::insert` / one step of `HashMap::extend` on the frontier
(deduplicating map from Solution to cost): replace the value of an existing
key, otherwise add the new entry. -/
def frontierInsert (m : List (Solution × Fl)) (kv : Solution × Fl) :
    List (Solution × Fl) :=
  if m.any (fun e => e.1 = kv.1) then
    m.map (fun e => if e.1 = kv.1 then (e.1, kv.2) else e)
  else m ++ [kv]

/-- `HashMap::extend` over the drained candidate list
(`src/solve/ruin_and_recreate.rs` line 138). -/
def frontierExtend (m : List (Solution × Fl)) (news : List (Solution × Fl)) :
    List (Solution × Fl) :=
  news.foldl frontierInsert m

/-- One recreate round: merge the round's candidates into the frontier. -/
def recreateRound (cc : Solution → Fl) (regions : List RouteRegion)
    (removed : List Nat) (m : List (Solution × Fl)) : List (Solution × Fl) :=
  frontierExtend m (roundCandidates cc regions removed (m.map Prod.fst))

/-- The recreate loop (`src/solve/ruin_and_recreate.rs` line 111): one round
per removed stop slot. -/
def recreateRounds (cc : Solution → Fl) (regions : List RouteRegion)
    (removed : List Nat) : Nat → List (Solution × Fl) → List (Solution × Fl)
  | 0, m => m
  | n + 1, m => recreateRounds cc regions removed n (recreateRound cc regions removed m)

/-- The final frontier of `optimize_regions`
(`src/solve/ruin_and_recreate.rs` lines 94-139): ruin all regions, seed the
frontier with the ruined solution and its cost (no finiteness check), then run
one recreate round per removed stop slot. -/
def optimizeFrontier (cc : Solution → Fl) (initSol : Solution)
    (regions : List RouteRegion) : List (Solution × Fl) :=
  let ruined := ruinAll initSol regions
  let removed := allRemovedStops regions initSol
  recreateRounds cc regions removed removed.length [(ruined, cc ruined)]

/-- Rust's `Iterator::min_by` with the `OrderedFloat` comparison on costs
(`src/solve/ruin_and_recreate.rs` lines 141-143): `none` on an empty frontier
(the `expect("at least one solution")` branch), otherwise the first entry with
minimal cost. -/
def minByCost : List (Solution × Fl) → Option (Solution × Fl)
  | [] => none
  | x :: xs => some (xs.foldl (fun best y => if Fl.ordLt y.2 best.2 then y else best) x)

/-- `RuinAndRecreateSolver::optimize_regions`
(`src/solve/ruin_and_recreate.rs` lines 94-146).  The `none` branch models the
`expect("at least one solution")` panic; it is proved unreachable. -/
def optimizeRegions (cc : Solution → Fl) (initSol : Solution)
    (regions : List RouteRegion) : Solution :=
  match minByCost (optimizeFrontier cc initSol regions) with
  | some pr => pr.1
  | none => ruinAll initSol regions

/-- The per-stop nearest-neighbor table (`src/solve/ruin_and_recreate.rs`
lines 173-184): for every stop, the first other stop (in ascending index
order) at minimal router distance.  The `getD 0` default models the
`expect("stop index")` branch, unreachable when `stop_count ≥ 2`. -/
def closestStops {L : Type} (p : Problem L) (router : L → L → ℚ) : List Nat :=
  (List.range p.stopCount).map (fun one =>
    (argminQ (fun other => router (p.stopLocation one) (p.stopLocation other))
      ((List.range p.stopCount).filter (fun other => one != other))).getD 0)

/-- The mutable state of the `RuinAndRecreateSolver` main loop: the incumbent
solution, its stored cost, and the pseudorandom cursor. -/
structure RRState where
  sol : Solution
  cost : Fl
  k : Nat

/-- One iteration of the `RuinAndRecreateSolver` main loop
(`src/solve/ruin_and_recreate.rs` lines 189-206): choose regions, ruin and
recreate, and replace the incumbent pair exactly when the recreated cost is
strictly lower under the primitive `f64` comparison. -/
def rrStep (cc : Solution → Fl) (closest : List Nat) (g : Nat → Nat)
    (st : RRState) : RRState :=
  let pick := chooseRegions st.sol closest g st.k
  let newSol := optimizeRegions cc st.sol pick.1
  let newCost := cc newSol
  if Fl.primLt newCost st.cost then ⟨newSol, newCost, pick.2⟩
  else ⟨st.sol, st.cost, pick.2⟩

/-- `n` iterations of the main loop. -/
def rrLoop (cc : Solution → Fl) (closest : List Nat) (g : Nat → Nat) :
    Nat → RRState → RRState
  | 0, st => st
  | n + 1, st => rrStep cc closest g (rrLoop cc closest g n st)

/-- `RuinAndRecreateSolver::solve` (`src/solve/ruin_and_recreate.rs` lines
160-209): short-circuit zero vehicles, zero stops, and a single stop; then
precompute nearest stops, bootstrap from the initial solver, and run the
iteration budget. -/
def rrSolve {L : Type} (cc : Solution → Fl) (router : L → L → ℚ)
    (initSolver : Problem L → Solution) (iterations : Nat) (g : Nat → Nat)
    (p : Problem L) : Solution :=
  if p.vehicleCount = 0 then ⟨[]⟩
  else if p.stopCount = 0 then ⟨List.replicate p.vehicleCount []⟩
  else if p.stopCount = 1 then initSolver p
  else
    let closest := closestStops p router
    let s0 := initSolver p
    (rrLoop cc closest g iterations ⟨s0, cc s0, 0⟩).sol

/-! ### Concrete instances used by witnesses and counterexamples -/

/-- The all-zero pseudorandom stream (every `choose` picks the first
element). -/
def gZero : Nat → Nat := fun _ => 0

/-- A constant router: every pair of locations is at distance 1, so every
nearest-stop selection is a tie. -/
def routerOne : Nat → Nat → ℚ := fun _ _ => 1

/-- One vehicle, two stops; all distances tie under `routerOne`. -/
def probTie : Problem Nat := ⟨1, 2, fun i => i, fun _ => 5⟩

/-- An adversarial cost calculator: the cost of a solution is the number of
stops it assigns, so solutions that lose stops are cheaper. -/
def ccCount : Solution → Fl := fun s => Fl.fin (s.totalStops : ℚ)

/-- A cost calculator that is non-finite on every solution. -/
def ccNan : Solution → Fl := fun _ => Fl.nan

/-- A cost calculator with a dominating missed-stop penalty for two stops. -/
def ccPenalty : Solution → Fl := fun s => Fl.fin ((2 - (s.totalStops : ℚ)) * 1000)

/-- A constant initial solver answering `[[0, 1]]`. -/
def initTwo : Problem Nat → Solution := fun _ => ⟨[[0, 1]]⟩

/-! ### Claim theorems -/

/-- C7: for every problem with exactly one stop and at least one vehicle,
`RuinAndRecreateSolver::solve` returns exactly the initial solver's solution,
performing no ruin-and-recreate iterations. -/
theorem claim7_single_stop_delegates {L : Type} (cc : Solution → Fl)
    (router : L → L → ℚ) (initSolver : Problem L → Solution) (iterations : Nat)
    (g : Nat → Nat) (p : Problem L) (hv : 0 < p.vehicleCount)
    (hs : p.stopCount = 1) :
    rrSolve cc router initSolver iterations g p = initSolver p := by
  unfold rrSolve
  rw [if_neg (by omega), if_neg (by omega), if_pos hs]

theorem claim7_witness :
    0 < (⟨1, 1, fun i => i, fun _ => 0⟩ : Problem Nat).vehicleCount ∧
    rrSolve ccCount routerOne initTwo 9 gZero ⟨1, 1, fun i => i, fun _ => 0⟩ =
      initTwo ⟨1, 1, fun i => i, fun _ => 0⟩ :=
  ⟨by decide,
   claim7_single_stop_delegates ccCount routerOne initTwo 9 gZero _ (by decide) rfl⟩

/-- C4: the claim fails on the code.  `NearestNeighborSolver` iterates a
`std::collections::HashSet` whose order is randomized per process; on a
problem where two stops tie at minimal router distance, the two feasible
iteration orders `[0, 1]` and `[1, 0]` of the unvisited set `{0, 1}` produce
different Solutions, so the output is not a function of topology, Router,
CostCalculator and seed alone, and two runs need not agree. -/
theorem claim4_hash_order_breaks_determinism :
    nnSolve probTie routerOne [0, 1] = ⟨[[0, 1]]⟩ ∧
    nnSolve probTie routerOne [1, 0] = ⟨[[1, 0]]⟩ ∧
    nnSolve probTie routerOne [0, 1] ≠ nnSolve probTie routerOne [1, 0] :=
  ⟨by decide, by decide, by decide⟩

/-- C5: the claim fails on the code.  With two unvisited stops at equal
minimal router distance from the reference point, `min_by_key` returns the
first minimal element in the `HashSet` iteration order, not the lowest stop
index: under the feasible order `[1, 0]` the solver appends stop 1 first. -/
theorem claim5_tie_not_lowest_index :
    routerOne (probTie.vehicleStartLocation 0) (probTie.stopLocation 0) =
      routerOne (probTie.vehicleStartLocation 0) (probTie.stopLocation 1) ∧
    nnSolve probTie routerOne [1, 0] = ⟨[[1, 0]]⟩ :=
  ⟨rfl, by decide⟩

/-! ### Order lemmas for `Fl` -/

theorem Fl.ordLe_refl (a : Fl) : Fl.ordLe a a = true := by
  cases a <;> simp [Fl.ordLe]

theorem Fl.ordLe_trans {a b c : Fl} (h1 : Fl.ordLe a b = true)
    (h2 : Fl.ordLe b c = true) : Fl.ordLe a c = true := by
  cases a <;> cases b <;> cases c <;> simp_all [Fl.ordLe]
  exact le_trans h1 h2

theorem Fl.primLt_ordLe {a b : Fl} (h : Fl.primLt a b = true) :
    Fl.ordLe a b = true := by
  cases a <;> cases b <;> simp_all [Fl.primLt, Fl.ordLt, Fl.ordLe]
  exact le_of_lt h

/-! ### The acceptance step and incumbent-cost monotonicity -/

theorem rrStep_cost_le (cc : Solution → Fl) (closest : List Nat)
    (g : Nat → Nat) (st : RRState) :
    Fl.ordLe (rrStep cc closest g st).cost st.cost = true := by
  simp only [rrStep]
  split
  · exact Fl.primLt_ordLe (by assumption)
  · exact Fl.ordLe_refl _

/-- C2: the incumbent pair is replaced exactly when the recreated solution's
cost is strictly lower under the primitive `f64` comparison, and consequently
the incumbent cost sequence over the iterations is non-increasing in the
total cost order. -/
theorem claim2_greedy_acceptance_monotone (cc : Solution → Fl)
    (closest : List Nat) (g : Nat → Nat) :
    (∀ st : RRState,
      rrStep cc closest g st =
        (if Fl.primLt
            (cc (optimizeRegions cc st.sol (chooseRegions st.sol closest g st.k).1))
            st.cost
         then ⟨optimizeRegions cc st.sol (chooseRegions st.sol closest g st.k).1,
               cc (optimizeRegions cc st.sol (chooseRegions st.sol closest g st.k).1),
               (chooseRegions st.sol closest g st.k).2⟩
         else ⟨st.sol, st.cost, (chooseRegions st.sol closest g st.k).2⟩)) ∧
    (∀ (st : RRState) (n m : Nat), n ≤ m →
      Fl.ordLe (rrLoop cc closest g m st).cost (rrLoop cc closest g n st).cost = true) := by
  constructor
  · intro st
    simp only [rrStep]
  · intro st n m h
    induction m with
    | zero =>
      have : n = 0 := Nat.le_zero.mp h
      subst this
      exact Fl.ordLe_refl _
    | succ m ih =>
      rcases Nat.lt_succ_iff_lt_or_eq.mp (Nat.lt_succ_of_le h) with h' | h'
      · exact Fl.ordLe_trans (rrStep_cost_le cc closest g (rrLoop cc closest g m st))
          (ih (Nat.lt_succ_iff.mp h'))
      · subst h'
        exact Fl.ordLe_refl _

theorem claim2_witness :
    Fl.ordLe (rrLoop ccCount [1, 0] gZero 2 ⟨⟨[[0, 1]]⟩, Fl.fin 2, 0⟩).cost
      (rrLoop ccCount [1, 0] gZero 1 ⟨⟨[[0, 1]]⟩, Fl.fin 2, 0⟩).cost = true :=
  (claim2_greedy_acceptance_monotone ccCount [1, 0] gZero).2
    ⟨⟨[[0, 1]]⟩, Fl.fin 2, 0⟩ 1 2 (by decide)

/-! ### Counting lemmas for Solution operations -/

theorem countSum_set (f : List Nat → Nat) (l : List (List Nat)) (i : Nat)
    (x : List Nat) (h : i < l.length) :
    ((l.set i x).map f).sum + f (l.getD i []) = (l.map f).sum + f x := by
  induction l generalizing i with
  | nil => simp at h
  | cons a t ih =>
    cases i with
    | zero => simp [Nat.add_comm, Nat.add_left_comm]
    | succ j =>
      have hj : j < t.length := by simpa using h
      have := ih j hj
      simp only [List.set, List.map_cons, List.sum_cons, List.getD_cons_succ]
      omega

theorem routes_length_addStop (s : Solution) (v st : Nat) :
    (s.addStop v st).routes.length = s.routes.length := by
  simp [Solution.addStop]

theorem routes_length_ruinRoute (s : Solution) (v a b : Nat) :
    (s.ruinRoute v a b).routes.length = s.routes.length := by
  simp [Solution.ruinRoute]

theorem routes_length_insertStop (s : Solution) (v pos st : Nat) :
    (s.insertStop v pos st).routes.length = s.routes.length := by
  simp [Solution.insertStop]

theorem countStop_addStop (s : Solution) (v st t : Nat)
    (h : v < s.routes.length) :
    (s.addStop v st).countStop t = s.countStop t + if st = t then 1 else 0 := by
  have key := countSum_set (fun r => r.count t) s.routes v
    ((s.routes.getD v []) ++ [st]) h
  simp only [Solution.addStop, Solution.countStop, List.count_append] at key ⊢
  have hsingle : List.count t [st] = if st = t then 1 else 0 := by
    simp [List.count_cons]
  rw [hsingle] at key
  omega

theorem countStop_insertStop (s : Solution) (v pos st t : Nat)
    (h : v < s.routes.length) :
    (s.insertStop v pos st).countStop t = s.countStop t + if st = t then 1 else 0 := by
  have key := countSum_set (fun r => r.count t) s.routes v
    ((s.routes.getD v []).take pos ++ st :: (s.routes.getD v []).drop pos) h
  simp only [Solution.insertStop, Solution.countStop] at key ⊢
  have hsplit : ((s.routes.getD v []).take pos ++
      st :: (s.routes.getD v []).drop pos).count t =
      (s.routes.getD v []).count t + (if st = t then 1 else 0) := by
    rw [List.count_append, List.count_cons]
    conv_rhs => rw [← List.take_append_drop pos (s.routes.getD v []), List.count_append]
    simp [Nat.add_assoc, Nat.add_comm, Nat.add_left_comm]
  rw [hsplit] at key
  omega

theorem countStop_ruinRoute_le (s : Solution) (v a b t : Nat) (hab : a ≤ b) :
    (s.ruinRoute v a b).countStop t ≤ s.countStop t := by
  by_cases h : v < s.routes.length
  · have key := countSum_set (fun r => r.count t) s.routes v
      ((s.routes.getD v []).take a ++ (s.routes.getD v []).drop b) h
    simp only [Solution.ruinRoute, Solution.countStop] at key ⊢
    have hle : ((s.routes.getD v []).take a ++ (s.routes.getD v []).drop b).count t ≤
        (s.routes.getD v []).count t := by
      rw [List.count_append]
      conv_rhs => rw [← List.take_append_drop b (s.routes.getD v []), List.count_append]
      have : (s.routes.getD v []).take a = ((s.routes.getD v []).take b).take a := by
        rw [List.take_take, Nat.min_eq_left hab]
      rw [this]
      have := (List.take_sublist a ((s.routes.getD v []).take b)).count_le t
      omega
    omega
  · have hset : s.routes.set v ((s.routes.getD v []).take a ++ (s.routes.getD v []).drop b)
        = s.routes := List.set_eq_of_length_le (by omega)
    simp only [Solution.ruinRoute, Solution.countStop, hset, le_refl]

theorem hasStop_false_iff (s : Solution) (st : Nat) :
    s.hasStop st = false ↔ s.countStop st = 0 := by
  simp only [Solution.hasStop, Solution.countStop]
  rw [← Bool.not_eq_true, List.any_eq_true]
  rw [List.sum_eq_zero_iff]
  constructor
  · intro h x hx
    rcases List.mem_map.mp hx with ⟨r, hr, rfl⟩
    have : st ∉ r := by
      intro hmem
      exact h ⟨r, hr, by simpa [List.contains] using hmem⟩
    simpa [List.count_eq_zero] using this
  · intro h hex
    rcases hex with ⟨r, hr, hc⟩
    have hmem : st ∈ r := by simpa [List.contains] using hc
    have : r.count st = 0 := h (r.count st) (List.mem_map.mpr ⟨r, hr, rfl⟩)
    rw [List.count_eq_zero] at this
    exact this hmem

theorem countStop_replicate_nil (n t : Nat) :
    (Solution.mk (List.replicate n [])).countStop t = 0 := by
  simp [Solution.countStop, List.map_replicate]

/-! ### NearestNeighborSolver lemmas -/

theorem argminGo_mem (f : Nat → ℚ) (b : Nat) (l : List Nat) :
    argminGo f b l ∈ b :: l := by
  induction l generalizing b with
  | nil => simp [argminGo]
  | cons y ys ih =>
    simp only [argminGo]
    by_cases hf : f y < f b
    · rw [if_pos hf]
      exact List.mem_cons_of_mem b (ih y)
    · rw [if_neg hf]
      rcases List.mem_cons.mp (ih b) with h | h
      · rw [h]; exact List.mem_cons_self b _
      · exact List.mem_cons_of_mem b (List.mem_cons_of_mem y h)

theorem nnGo_routes_length {L : Type} (p : Problem L) (router : L → L → ℚ) :
    ∀ (fuel : Nat) (sol : Solution) (unvisited : List Nat) (vi : Nat),
      (nnGo p router fuel sol unvisited vi).routes.length = sol.routes.length := by
  intro fuel
  induction fuel with
  | zero => intro sol unvisited vi; cases unvisited <;> simp [nnGo]
  | succ n ih =>
    intro sol unvisited vi
    cases unvisited with
    | nil => simp [nnGo]
    | cons u us =>
      simp only [nnGo]
      rw [ih, routes_length_addStop]

theorem nnGo_countStop {L : Type} (p : Problem L) (router : L → L → ℚ) (t : Nat) :
    ∀ (fuel : Nat) (sol : Solution) (unvisited : List Nat) (vi : Nat),
      fuel = unvisited.length → unvisited.Nodup →
      sol.routes.length = p.vehicleCount → vi < p.vehicleCount →
      (nnGo p router fuel sol unvisited vi).countStop t =
        sol.countStop t + unvisited.count t := by
  intro fuel
  induction fuel with
  | zero =>
    intro sol unvisited vi hf _ _ _
    have : unvisited = [] := List.length_eq_zero.mp hf.symm
    subst this
    simp [nnGo]
  | succ n ih =>
    intro sol unvisited vi hf hnd hlen hvi
    cases unvisited with
    | nil => simp at hf
    | cons u us =>
      simp only [nnGo]
      have hmem : argminGo (fun stop =>
          router (match (sol.routes.getD vi []).getLast? with
            | some stop => p.stopLocation stop
            | none => p.vehicleStartLocation vi) (p.stopLocation stop)) u us ∈ u :: us :=
        argminGo_mem _ u us
      set chosen := argminGo (fun stop =>
          router (match (sol.routes.getD vi []).getLast? with
            | some stop => p.stopLocation stop
            | none => p.vehicleStartLocation vi) (p.stopLocation stop)) u us with hch
      rw [ih (sol.addStop vi chosen) ((u :: us).erase chosen) ((vi + 1) % p.vehicleCount)
        (by rw [List.length_erase_of_mem hmem]; simpa using hf)
        (hnd.erase chosen)
        (by rw [routes_length_addStop]; exact hlen)
        (Nat.mod_lt _ (by omega))]
      rw [countStop_addStop sol vi chosen t (by omega)]
      by_cases hct : chosen = t
      · subst hct
        have hpos : 0 < List.count chosen (u :: us) := List.count_pos_iff.mpr hmem
        have h1 : ((u :: us).erase chosen).count chosen =
            List.count chosen (u :: us) - 1 := by
          rw [List.count_erase]
          simp
        rw [if_pos rfl, h1]
        omega
      · have h1 : ((u :: us).erase chosen).count t = List.count t (u :: us) := by
          rw [List.count_erase]
          simp [beq_iff_eq, hct]
        rw [if_neg hct, h1]
        omega

/-- C3: with at least one vehicle, `NearestNeighborSolver::solve` assigns
every stop index below `stop_count` exactly once and no other index at all,
for every iteration order of the unvisited set (every permutation of
`0..stop_count`). -/
theorem claim3_nn_assigns_each_stop_once {L : Type} (p : Problem L)
    (router : L → L → ℚ) (order : List Nat) (hv : 0 < p.vehicleCount)
    (hnd : order.Nodup) (hmem : ∀ s, s ∈ order ↔ s < p.stopCount) :
    ∀ t, (nnSolve p router order).countStop t =
      if t < p.stopCount then 1 else 0 := by
  intro t
  unfold nnSolve
  rw [if_neg (by omega)]
  rw [nnGo_countStop p router t order.length _ order 0 rfl hnd
    (by simp) hv]
  rw [countStop_replicate_nil]
  by_cases ht : t < p.stopCount
  · simp [ht, List.count_eq_one_of_mem hnd ((hmem t).mpr ht)]
  · simp [ht, List.count_eq_zero_of_not_mem (fun hc => ht ((hmem t).mp hc))]

theorem claim3_witness :
    (nnSolve probTie routerOne [0, 1]).countStop 0 = 1 ∧
    (nnSolve probTie routerOne [0, 1]).countStop 5 = 0 := by
  have h := claim3_nn_assigns_each_stop_once probTie routerOne [0, 1]
    (by decide) (by decide) (fun s => by simp [probTie, List.mem_cons]; omega)
  exact ⟨by simpa using h 0, by simpa using h 5⟩

/-! ### Region-selection lemmas -/

theorem chooseList_of_ne_nil {α : Type} (l : List α) (g : Nat → Nat) (k : Nat)
    (h : l ≠ []) : chooseList l g k = (l.get? (g k % l.length), k + 1) := by
  cases l with
  | nil => exact absurd rfl h
  | cons a t => rfl

theorem chooseRegion_spec (sol : Solution) (v s size : Nat) (g : Nat → Nat)
    (k : Nat) :
    (chooseRegion sol v s size g k).1.vehicleIndex = v ∧
    (chooseRegion sol v s size g k).1.startPos ≤ (chooseRegion sol v s size g k).1.endPos ∧
    (chooseRegion sol v s size g k).1.endPos ≤ (sol.routes.getD v []).length ∧
    (chooseRegion sol v s size g k).1.endPos - (chooseRegion sol v s size g k).1.startPos ≤ size := by
  have hidx : (chooseList (List.range ((sol.routes.getD v []).length - size)) g k).1.getD 0 = 0 ∨
      (chooseList (List.range ((sol.routes.getD v []).length - size)) g k).1.getD 0 <
        (sol.routes.getD v []).length - size := by
    rcases Nat.eq_zero_or_pos ((sol.routes.getD v []).length - size) with h0 | hpos
    · left
      rw [h0]
      simp [chooseList]
    · right
      have hne : List.range ((sol.routes.getD v []).length - size) ≠ [] := by
        simp only [ne_eq, List.range_eq_nil]
        omega
      rw [chooseList_of_ne_nil _ g k hne]
      have hlt : g k % (List.range ((sol.routes.getD v []).length - size)).length <
          (sol.routes.getD v []).length - size := by
        rw [List.length_range]
        exact Nat.mod_lt _ hpos
      rw [List.get?_eq_getElem?, List.getElem?_range (by simpa using hlt)]
      simpa using hlt
  have hbound : (chooseList (List.range ((sol.routes.getD v []).length - size)) g k).1.getD 0 ≤
      (sol.routes.getD v []).length := by
    rcases hidx with h | h <;> omega
  refine ⟨?_, ?_, ?_, ?_⟩
  · rfl
  · simp only [chooseRegion]
    exact Nat.le_min.mpr ⟨Nat.le_add_right _ _, hbound⟩
  · simp only [chooseRegion]
    exact Nat.min_le_right _ _
  · simp only [chooseRegion]
    have h1 := Nat.min_le_left
      ((chooseList (List.range ((sol.routes.getD v []).length - size)) g k).1.getD 0 + size)
      ((sol.routes.getD v []).length)
    omega

theorem uniqueByGo_subset {seen : List Nat} {l : List (Nat × Nat)}
    {pr : Nat × Nat} (h : pr ∈ uniqueByGo seen l) : pr ∈ l := by
  induction l generalizing seen with
  | nil => simp [uniqueByGo] at h
  | cons q rest ih =>
    simp only [uniqueByGo] at h
    split at h
    · exact List.mem_cons_of_mem q (ih h)
    · rcases List.mem_cons.mp h with h' | h'
      · rw [h']; exact List.mem_cons_self q rest
      · exact List.mem_cons_of_mem q (ih h')

theorem uniqueByGo_length {seen : List Nat} {l : List (Nat × Nat)} :
    (uniqueByGo seen l).length ≤ l.length := by
  induction l generalizing seen with
  | nil => simp [uniqueByGo]
  | cons q rest ih =>
    simp only [uniqueByGo]
    split
    · exact le_trans ih (Nat.le_succ _)
    · simpa using ih

theorem uniqueByGo_keys {seen : List Nat} {l : List (Nat × Nat)} :
    (uniqueByGo seen l).Pairwise (fun a b => a.1 ≠ b.1) ∧
    ∀ pr ∈ uniqueByGo seen l, pr.1 ∉ seen := by
  induction l generalizing seen with
  | nil => simp [uniqueByGo]
  | cons q rest ih =>
    simp only [uniqueByGo]
    by_cases hq : q.1 ∈ seen
    · rw [if_pos hq]
      exact ih
    · rw [if_neg hq]
      have ihq := @ih (q.1 :: seen)
      refine ⟨List.Pairwise.cons ?_ ihq.1, ?_⟩
      · intro b hb
        have hnb := ihq.2 b hb
        intro hcontra
        exact hnb (by rw [← hcontra]; exact List.mem_cons_self _ _)
      · intro pr hpr
        rcases List.mem_cons.mp hpr with h' | h'
        · rw [h']; exact hq
        · intro hc
          exact ihq.2 pr h' (List.mem_cons_of_mem _ hc)

theorem vehicleOfGo_lt {stop : Nat} :
    ∀ {rs : List (List Nat)} {i v : Nat}, vehicleOfGo stop i rs = some v →
      i ≤ v ∧ v - i < rs.length := by
  intro rs
  induction rs with
  | nil => intro i v h; simp [vehicleOfGo] at h
  | cons r rest ih =>
    intro i v h
    simp only [vehicleOfGo] at h
    split at h
    · cases h
      simp
    · have := ih h
      simp only [List.length_cons]
      omega

theorem vehicleOf_lt {sol : Solution} {stop v : Nat}
    (h : vehicleOf sol stop = some v) : v < sol.routes.length := by
  have := vehicleOfGo_lt h
  omega

theorem regionsGo_length (sol : Solution) (size : Nat) (g : Nat → Nat) :
    ∀ (pairs : List (Nat × Nat)) (k : Nat),
      (regionsGo sol size g pairs k).1.length = pairs.length := by
  intro pairs
  induction pairs with
  | nil => intro k; rfl
  | cons pr rest ih =>
    intro k
    simp only [regionsGo, List.length_cons]
    rw [ih]

theorem regionsGo_mem (sol : Solution) (size : Nat) (g : Nat → Nat) :
    ∀ (pairs : List (Nat × Nat)) (k : Nat),
      ∀ r ∈ (regionsGo sol size g pairs k).1,
        ∃ pr ∈ pairs, ∃ k', r = (chooseRegion sol pr.1 pr.2 size g k').1 := by
  intro pairs
  induction pairs with
  | nil => intro k r h; simp [regionsGo] at h
  | cons pr rest ih =>
    intro k r h
    simp only [regionsGo] at h
    rcases List.mem_cons.mp h with h' | h'
    · exact ⟨pr, List.mem_cons_self _ _, k, h'⟩
    · rcases ih _ r h' with ⟨pr', hpr', k', hk'⟩
      exact ⟨pr', List.mem_cons_of_mem _ hpr', k', hk'⟩

theorem regionsGo_vehicles (sol : Solution) (size : Nat) (g : Nat → Nat) :
    ∀ (pairs : List (Nat × Nat)) (k : Nat),
      (regionsGo sol size g pairs k).1.map RouteRegion.vehicleIndex =
        pairs.map Prod.fst := by
  intro pairs
  induction pairs with
  | nil => intro k; rfl
  | cons pr rest ih =>
    intro k
    simp only [regionsGo, List.map_cons]
    rw [ih, (chooseRegion_spec sol pr.1 pr.2 size g k).1]

/-! ### Frontier lemmas -/

theorem ite_some_eq {α : Type} (c : Bool) (x e : α) :
    (if c = true then some x else none) = some e ↔ c = true ∧ e = x := by
  cases c <;> simp [eq_comm]

theorem frontierInsert_mem {m : List (Solution × Fl)} {kv e : Solution × Fl}
    (h : e ∈ frontierInsert m kv) : e ∈ m ∨ e = kv := by
  unfold frontierInsert at h
  split at h
  · rcases List.mem_map.mp h with ⟨e', he', heq⟩
    by_cases hk : e'.1 = kv.1
    · right
      rw [← heq]
      simp [hk]
    · left
      rw [← heq, if_neg hk]
      exact he'
  · rcases List.mem_append.mp h with h' | h'
    · exact Or.inl h'
    · right
      simpa using h'

theorem frontierInsert_key_mem {m : List (Solution × Fl)} (kv : Solution × Fl)
    {s : Solution} (h : s ∈ m.map Prod.fst) :
    s ∈ (frontierInsert m kv).map Prod.fst := by
  unfold frontierInsert
  split
  · rcases List.mem_map.mp h with ⟨e, he, heq⟩
    refine List.mem_map.mpr
      ⟨if e.1 = kv.1 then (e.1, kv.2) else e, List.mem_map.mpr ⟨e, he, rfl⟩, ?_⟩
    by_cases hk : e.1 = kv.1
    · rw [if_pos hk]
      exact heq
    · rw [if_neg hk]
      exact heq
  · rw [List.map_append]
    exact List.mem_append_left _ h

theorem frontierExtend_mem :
    ∀ {news m : List (Solution × Fl)} {e : Solution × Fl},
      e ∈ frontierExtend m news → e ∈ m ∨ e ∈ news := by
  intro news
  induction news with
  | nil => intro m e h; exact Or.inl h
  | cons kv rest ih =>
    intro m e h
    simp only [frontierExtend, List.foldl_cons] at h
    rcases ih h with h' | h'
    · rcases frontierInsert_mem h' with h'' | h''
      · exact Or.inl h''
      · exact Or.inr (by rw [h'']; exact List.mem_cons_self _ _)
    · exact Or.inr (List.mem_cons_of_mem _ h')

theorem frontierExtend_key_mem :
    ∀ {news m : List (Solution × Fl)} {s : Solution},
      s ∈ m.map Prod.fst → s ∈ (frontierExtend m news).map Prod.fst := by
  intro news
  induction news with
  | nil => intro m s h; exact h
  | cons kv rest ih =>
    intro m s h
    simp only [frontierExtend, List.foldl_cons]
    exact ih (frontierInsert_key_mem kv h)

theorem frontierExtend_pres (P : Solution × Fl → Prop)
    {m news : List (Solution × Fl)} (hm : ∀ e ∈ m, P e) (hn : ∀ e ∈ news, P e) :
    ∀ e ∈ frontierExtend m news, P e :=
  fun e he => (frontierExtend_mem he).elim (hm e) (hn e)

theorem mem_roundCandidates {cc : Solution → Fl} {regions : List RouteRegion}
    {removed : List Nat} {keys : List Solution} {e : Solution × Fl} :
    e ∈ roundCandidates cc regions removed keys ↔
    ∃ sol ∈ keys, ∃ stop ∈ removed, sol.hasStop stop = false ∧ ∃ r ∈ regions,
      (cc (sol.insertStop r.vehicleIndex r.startPos stop)).isFinite = true ∧
      e = (sol.insertStop r.vehicleIndex r.startPos stop,
           cc (sol.insertStop r.vehicleIndex r.startPos stop)) := by
  simp only [roundCandidates, List.mem_flatMap, List.mem_filter,
    Bool.not_eq_true', List.mem_filterMap, ite_some_eq]
  tauto

theorem recreateRounds_pres (cc : Solution → Fl) (regions : List RouteRegion)
    (removed : List Nat) (P : Solution × Fl → Prop)
    (hstep : ∀ m : List (Solution × Fl), (∀ e ∈ m, P e) →
      ∀ e ∈ roundCandidates cc regions removed (m.map Prod.fst), P e) :
    ∀ (n : Nat) (m : List (Solution × Fl)), (∀ e ∈ m, P e) →
      ∀ e ∈ recreateRounds cc regions removed n m, P e := by
  intro n
  induction n with
  | zero => intro m hm; exact hm
  | succ n ih =>
    intro m hm
    simp only [recreateRounds]
    exact ih _ (frontierExtend_pres P hm (hstep m hm))

theorem recreateRounds_key_mem (cc : Solution → Fl) (regions : List RouteRegion)
    (removed : List Nat) {s : Solution} :
    ∀ (n : Nat) (m : List (Solution × Fl)), s ∈ m.map Prod.fst →
      s ∈ (recreateRounds cc regions removed n m).map Prod.fst := by
  intro n
  induction n with
  | zero => intro m h; exact h
  | succ n ih =>
    intro m h
    simp only [recreateRounds]
    exact ih _ (frontierExtend_key_mem h)

/-! ### Minimum selection and the final frontier -/

theorem minFold_mem (xs : List (Solution × Fl)) (x : Solution × Fl) :
    (xs.foldl (fun best y => if Fl.ordLt y.2 best.2 then y else best) x) ∈ x :: xs := by
  induction xs generalizing x with
  | nil => simp
  | cons y ys ih =>
    simp only [List.foldl_cons]
    by_cases hf : Fl.ordLt y.2 x.2 = true
    · rw [if_pos hf]
      exact List.mem_cons_of_mem x (ih y)
    · rw [if_neg hf]
      rcases List.mem_cons.mp (ih x) with h | h
      · rw [h]
        exact List.mem_cons_self _ _
      · exact List.mem_cons_of_mem _ (List.mem_cons_of_mem _ h)

theorem minByCost_mem {l : List (Solution × Fl)} {e : Solution × Fl}
    (h : minByCost l = some e) : e ∈ l := by
  cases l with
  | nil => simp [minByCost] at h
  | cons x xs =>
    simp only [minByCost, Option.some.injEq] at h
    rw [← h]
    exact minFold_mem xs x

theorem minByCost_ne_none {l : List (Solution × Fl)} (h : l ≠ []) :
    minByCost l ≠ none := by
  cases l with
  | nil => exact absurd rfl h
  | cons x xs => simp [minByCost]

theorem optimizeFrontier_pres (cc : Solution → Fl) (initSol : Solution)
    (regions : List RouteRegion) (P : Solution × Fl → Prop)
    (hseed : P (ruinAll initSol regions, cc (ruinAll initSol regions)))
    (hstep : ∀ m : List (Solution × Fl), (∀ e ∈ m, P e) →
      ∀ e ∈ roundCandidates cc regions (allRemovedStops regions initSol)
        (m.map Prod.fst), P e) :
    ∀ e ∈ optimizeFrontier cc initSol regions, P e := by
  intro e he
  refine recreateRounds_pres cc regions (allRemovedStops regions initSol) P hstep
    (allRemovedStops regions initSol).length
    [(ruinAll initSol regions, cc (ruinAll initSol regions))] ?_ e he
  intro e' he'
  rw [List.mem_singleton.mp he']
  exact hseed

theorem ruined_mem_optimizeFrontier (cc : Solution → Fl) (initSol : Solution)
    (regions : List RouteRegion) :
    ruinAll initSol regions ∈ (optimizeFrontier cc initSol regions).map Prod.fst := by
  refine recreateRounds_key_mem cc regions (allRemovedStops regions initSol)
    (allRemovedStops regions initSol).length
    [(ruinAll initSol regions, cc (ruinAll initSol regions))] ?_
  simp

theorem optimizeFrontier_ne_nil (cc : Solution → Fl) (initSol : Solution)
    (regions : List RouteRegion) : optimizeFrontier cc initSol regions ≠ [] := by
  intro h
  have hmem := ruined_mem_optimizeFrontier cc initSol regions
  rw [h] at hmem
  simp at hmem

theorem optimizeRegions_mem (cc : Solution → Fl) (initSol : Solution)
    (regions : List RouteRegion) :
    optimizeRegions cc initSol regions ∈
      (optimizeFrontier cc initSol regions).map Prod.fst := by
  unfold optimizeRegions
  split
  · rename_i pr hpr
    exact List.mem_map.mpr ⟨pr, minByCost_mem hpr, rfl⟩
  · rename_i hnone
    exact absurd hnone (minByCost_ne_none (optimizeFrontier_ne_nil cc initSol regions))

/-! ### The choose_regions specification -/

theorem regionsFromPairs_spec (sol : Solution) (pairs : List (Nat × Nat))
    (size : Nat) (g : Nat → Nat) (k : Nat)
    (hkeys : pairs.Pairwise (fun a b => a.1 ≠ b.1))
    (hveh : ∀ pr ∈ pairs, ∃ stop, vehicleOf sol stop = some pr.1) :
    (regionsGo sol size g pairs k).1.length = pairs.length ∧
    (regionsGo sol size g pairs k).1.Pairwise
      (fun r1 r2 => r1.vehicleIndex ≠ r2.vehicleIndex) ∧
    ∀ r ∈ (regionsGo sol size g pairs k).1,
      r.vehicleIndex < sol.routes.length ∧ r.startPos ≤ r.endPos ∧
      r.endPos ≤ (sol.routes.getD r.vehicleIndex []).length ∧
      r.endPos - r.startPos ≤ size := by
  refine ⟨regionsGo_length sol size g pairs k, ?_, ?_⟩
  · have hmap : (regionsGo sol size g pairs k).1.map RouteRegion.vehicleIndex =
        pairs.map Prod.fst := regionsGo_vehicles sol size g pairs k
    have hpw : ((regionsGo sol size g pairs k).1.map RouteRegion.vehicleIndex).Pairwise Ne := by
      rw [hmap]
      exact List.pairwise_map.mpr hkeys
    exact List.pairwise_map.mp hpw
  · intro r hr
    rcases regionsGo_mem sol size g pairs k r hr with ⟨pr, hpr, k', hk'⟩
    obtain ⟨hv, h1, h2, h3⟩ := chooseRegion_spec sol pr.1 pr.2 size g k'
    rcases hveh pr hpr with ⟨stop, hstop⟩
    subst hk'
    rw [hv]
    exact ⟨vehicleOf_lt hstop, h1, h2, h3⟩

theorem chooseRegions_spec (sol : Solution) (closest : List Nat)
    (g : Nat → Nat) (k : Nat) :
    (chooseRegions sol closest g k).1.length ≤ 2 ∧
    (chooseRegions sol closest g k).1.Pairwise
      (fun r1 r2 => r1.vehicleIndex ≠ r2.vehicleIndex) ∧
    ∀ r ∈ (chooseRegions sol closest g k).1,
      r.vehicleIndex < sol.routes.length ∧ r.startPos ≤ r.endPos ∧
      r.endPos ≤ (sol.routes.getD r.vehicleIndex []).length ∧
      r.endPos - r.startPos ≤
        maxStopRegionSize / (chooseRegions sol closest g k).1.length := by
  simp only [chooseRegions]
  obtain ⟨hlen, hpw, hmem⟩ := regionsFromPairs_spec sol
    (uniqueByVehicle
      ([(chosenPair closest g k).1.1, (chosenPair closest g k).1.2].filterMap
        (fun stop => (vehicleOf sol stop).map (fun v => (v, stop)))))
    (maxStopRegionSize /
      (uniqueByVehicle
        ([(chosenPair closest g k).1.1, (chosenPair closest g k).1.2].filterMap
          (fun stop => (vehicleOf sol stop).map (fun v => (v, stop))))).length)
    g (chosenPair closest g k).2
    uniqueByGo_keys.1
    (by
      intro pr hpr
      rcases List.mem_filterMap.mp (uniqueByGo_subset hpr) with ⟨stop, hstop, hsome⟩
      rcases Option.map_eq_some'.mp hsome with ⟨v, hv, hpair⟩
      exact ⟨stop, by rw [hv, ← hpair]⟩)
  refine ⟨?_, hpw, ?_⟩
  · rw [hlen]
    refine le_trans uniqueByGo_length ?_
    simpa using List.length_filterMap_le
      (fun stop => (vehicleOf sol stop).map (fun v => (v, stop)))
      [(chosenPair closest g k).1.1, (chosenPair closest g k).1.2]
  · intro r hr
    obtain ⟨h1, h2, h3, h4⟩ := hmem r hr
    refine ⟨h1, h2, h3, ?_⟩
    rw [hlen]
    exact h4

theorem chooseList_range_getD (n : Nat) (g : Nat → Nat) (k : Nat) :
    (chooseList (List.range n) g k).1.getD 0 = 0 ∨
    (chooseList (List.range n) g k).1.getD 0 < n := by
  rcases Nat.eq_zero_or_pos n with h0 | hpos
  · left
    rw [h0]
    simp [chooseList]
  · right
    have hne : List.range n ≠ [] := by
      simp only [ne_eq, List.range_eq_nil]
      omega
    rw [chooseList_of_ne_nil _ g k hne]
    have hlt : g k % (List.range n).length < n := by
      rw [List.length_range]
      exact Nat.mod_lt _ hpos
    rw [List.get?_eq_getElem?, List.getElem?_range (by simpa using hlt)]
    simpa using hlt

theorem chooseRegion_start (sol : Solution) (v s size : Nat) (g : Nat → Nat)
    (k : Nat) :
    (chooseRegion sol v s size g k).1.startPos = 0 ∨
    (chooseRegion sol v s size g k).1.startPos <
      (sol.routes.getD v []).length - size := by
  simpa [chooseRegion] using
    chooseList_range_getD ((sol.routes.getD v []).length - size) g k

theorem chooseRegion_start_attainable (sol : Solution) (v s size k i : Nat)
    (hi : i < (sol.routes.getD v []).length - size) :
    ∃ g : Nat → Nat, (chooseRegion sol v s size g k).1.startPos = i := by
  refine ⟨fun _ => i, ?_⟩
  simp only [chooseRegion]
  have hne : List.range ((sol.routes.getD v []).length - size) ≠ [] := by
    simp only [ne_eq, List.range_eq_nil]
    omega
  rw [chooseList_of_ne_nil _ _ k hne]
  have hmod : i % (List.range ((sol.routes.getD v []).length - size)).length = i := by
    rw [List.length_range]
    exact Nat.mod_eq_of_lt hi
  simp only [hmod]
  rw [List.get?_eq_getElem?, List.getElem?_range hi]
  rfl

theorem chooseRegions_same_vehicle (sol : Solution) (closest : List Nat)
    (g : Nat → Nat) (k : Nat) (v : Nat)
    (ha : vehicleOf sol (chosenPair closest g k).1.1 = some v)
    (hb : vehicleOf sol (chosenPair closest g k).1.2 = some v) :
    (chooseRegions sol closest g k).1.length = 1 := by
  simp only [chooseRegions]
  rw [regionsGo_length]
  simp [ha, hb, uniqueByVehicle, uniqueByGo]

/-- C9: in every iteration, `choose_regions` returns at most two regions on
pairwise distinct vehicles (exactly one when both chosen stops lie on the same
vehicle's route); every region is a contiguous position range within its
route's bounds whose length is at most `MAX_STOP_REGION_SIZE` divided by the
number of regions; the start offset is one of the values `0..len - size`
(defaulting to 0 when that range is empty), and every value of that range is
attainable by some pseudorandom stream. -/
theorem claim9_region_shape (sol : Solution) (closest : List Nat)
    (g : Nat → Nat) (k : Nat) :
    ((chooseRegions sol closest g k).1.length ≤ 2 ∧
     (chooseRegions sol closest g k).1.Pairwise
       (fun r1 r2 => r1.vehicleIndex ≠ r2.vehicleIndex) ∧
     ∀ r ∈ (chooseRegions sol closest g k).1,
       r.vehicleIndex < sol.routes.length ∧ r.startPos ≤ r.endPos ∧
       r.endPos ≤ (sol.routes.getD r.vehicleIndex []).length ∧
       r.endPos - r.startPos ≤
         maxStopRegionSize / (chooseRegions sol closest g k).1.length) ∧
    (∀ v, vehicleOf sol (chosenPair closest g k).1.1 = some v →
       vehicleOf sol (chosenPair closest g k).1.2 = some v →
       (chooseRegions sol closest g k).1.length = 1) ∧
    (∀ v s size k', (chooseRegion sol v s size g k').1.startPos = 0 ∨
       (chooseRegion sol v s size g k').1.startPos <
         (sol.routes.getD v []).length - size) ∧
    (∀ v s size k' i, i < (sol.routes.getD v []).length - size →
       ∃ g' : Nat → Nat, (chooseRegion sol v s size g' k').1.startPos = i) :=
  ⟨chooseRegions_spec sol closest g k,
   fun v ha hb => chooseRegions_same_vehicle sol closest g k v ha hb,
   fun v s size k' => chooseRegion_start sol v s size g k',
   fun v s size k' i hi => chooseRegion_start_attainable sol v s size k' i hi⟩

theorem claim9_witness :
    (chooseRegions ⟨[[0, 1]]⟩ [1, 0] gZero 0).1.length = 1 ∧
    (∃ g' : Nat → Nat,
      (chooseRegion ⟨[[0, 1, 2, 3, 4, 5, 6, 7]]⟩ 0 0 6 g' 0).1.startPos = 1) := by
  have h := claim9_region_shape ⟨[[0, 1]]⟩ [1, 0] gZero 0
  have h2 := claim9_region_shape ⟨[[0, 1, 2, 3, 4, 5, 6, 7]]⟩ [1, 0] gZero 0
  constructor
  · exact h.2.1 0 (by decide) (by decide)
  · exact h2.2.2.2 0 0 6 0 1 (by decide)

/-- C8: during recreate, an insertion candidate is pushed into the round's
additions exactly when its calculated cost is finite; consequently every entry
of the final frontier carries its own calculated cost and is either the
(unconditionally seeded) ruined solution or has finite cost, and the selected
recreated solution is the ruined solution or has finite cost — a candidate
with infinite or NaN cost never enters the frontier and is never selected. -/
theorem claim8_finite_filter (cc : Solution → Fl) :
    (∀ (regions : List RouteRegion) (removed : List Nat)
        (keys : List Solution) (e : Solution × Fl),
      e ∈ roundCandidates cc regions removed keys ↔
      ∃ sol ∈ keys, ∃ stop ∈ removed, sol.hasStop stop = false ∧
        ∃ r ∈ regions,
          (cc (sol.insertStop r.vehicleIndex r.startPos stop)).isFinite = true ∧
          e = (sol.insertStop r.vehicleIndex r.startPos stop,
               cc (sol.insertStop r.vehicleIndex r.startPos stop))) ∧
    (∀ (initSol : Solution) (regions : List RouteRegion),
      (∀ e ∈ optimizeFrontier cc initSol regions,
        e.2 = cc e.1 ∧
        (e.1 = ruinAll initSol regions ∨ (cc e.1).isFinite = true)) ∧
      (optimizeRegions cc initSol regions = ruinAll initSol regions ∨
        (cc (optimizeRegions cc initSol regions)).isFinite = true)) := by
  constructor
  · intro regions removed keys e
    exact mem_roundCandidates
  · intro initSol regions
    have hpres : ∀ e ∈ optimizeFrontier cc initSol regions,
        e.2 = cc e.1 ∧
        (e.1 = ruinAll initSol regions ∨ (cc e.1).isFinite = true) := by
      refine optimizeFrontier_pres cc initSol regions _ ⟨rfl, Or.inl rfl⟩ ?_
      intro m _ e he
      rcases mem_roundCandidates.mp he with
        ⟨sol, _, stop, _, _, r, _, hfin, heq⟩
      rw [heq]
      exact ⟨rfl, Or.inr hfin⟩
    refine ⟨hpres, ?_⟩
    rcases List.mem_map.mp (optimizeRegions_mem cc initSol regions) with ⟨e, he, heq⟩
    rw [← heq]
    exact (hpres e he).2

theorem claim8_witness :
    ((⟨[[0]]⟩ : Solution), Fl.fin 1) ∈
      roundCandidates ccCount [⟨0, 0, 2⟩] [0, 1] [⟨[[]]⟩] ∧
    (optimizeRegions ccCount ⟨[[0, 1]]⟩ [⟨0, 0, 2⟩] = ruinAll ⟨[[0, 1]]⟩ [⟨0, 0, 2⟩] ∨
      (ccCount (optimizeRegions ccCount ⟨[[0, 1]]⟩ [⟨0, 0, 2⟩])).isFinite = true) := by
  constructor
  · refine ((claim8_finite_filter ccCount).1 [⟨0, 0, 2⟩] [0, 1] [⟨[[]]⟩] _).mpr ?_
    exact ⟨⟨[[]]⟩, by decide, 0, by decide, by decide,
      ⟨0, 0, 2⟩, by decide, by decide, by decide⟩
  · exact ((claim8_finite_filter ccCount).2 ⟨[[0, 1]]⟩ [⟨0, 0, 2⟩]).2

/-- C10: `optimize_regions` is total in its selection step: the ruined
solution is seeded into the frontier with no finiteness check, so the frontier
is never empty, the minimum-cost selection always finds an element (the
`expect("at least one solution")` branch is unreachable), and when every
insertion candidate's cost is non-finite the recreated result is the ruined
solution itself. -/
theorem claim10_selection_total (cc : Solution → Fl) (initSol : Solution)
    (regions : List RouteRegion) :
    ruinAll initSol regions ∈ (optimizeFrontier cc initSol regions).map Prod.fst ∧
    optimizeFrontier cc initSol regions ≠ [] ∧
    minByCost (optimizeFrontier cc initSol regions) ≠ none ∧
    ((∀ (sol : Solution) (stop : Nat), stop ∈ allRemovedStops regions initSol →
        sol.hasStop stop = false → ∀ r ∈ regions,
        (cc (sol.insertStop r.vehicleIndex r.startPos stop)).isFinite = false) →
      optimizeRegions cc initSol regions = ruinAll initSol regions) := by
  refine ⟨ruined_mem_optimizeFrontier cc initSol regions,
    optimizeFrontier_ne_nil cc initSol regions,
    minByCost_ne_none (optimizeFrontier_ne_nil cc initSol regions), ?_⟩
  intro H
  have hcand : ∀ keys : List Solution,
      roundCandidates cc regions (allRemovedStops regions initSol) keys = [] := by
    intro keys
    rw [List.eq_nil_iff_forall_not_mem]
    intro e he
    rcases mem_roundCandidates.mp he with
      ⟨sol, _, stop, hstop, hhs, r, hr, hfin, _⟩
    rw [H sol stop hstop hhs r hr] at hfin
    exact Bool.false_ne_true hfin
  have hrounds : ∀ n m, recreateRounds cc regions (allRemovedStops regions initSol) n m = m := by
    intro n
    induction n with
    | zero => intro m; rfl
    | succ n ih =>
      intro m
      simp only [recreateRounds, recreateRound, hcand]
      exact ih m
  have hfront : optimizeFrontier cc initSol regions =
      [(ruinAll initSol regions, cc (ruinAll initSol regions))] := by
    simp only [optimizeFrontier]
    exact hrounds _ _
  unfold optimizeRegions
  rw [hfront]
  rfl

theorem claim10_witness :
    ruinAll ⟨[[0, 1]]⟩ [⟨0, 0, 2⟩] ∈
      (optimizeFrontier ccNan ⟨[[0, 1]]⟩ [⟨0, 0, 2⟩]).map Prod.fst ∧
    optimizeRegions ccNan ⟨[[0, 1]]⟩ [⟨0, 0, 2⟩] = ruinAll ⟨[[0, 1]]⟩ [⟨0, 0, 2⟩] := by
  have h := claim10_selection_total ccNan ⟨[[0, 1]]⟩ [⟨0, 0, 2⟩]
  exact ⟨h.1, h.2.2.2 (fun sol stop _ _ r _ => rfl)⟩

/-! ### Route-count preservation -/

theorem ruinAll_routes_length :
    ∀ (regions : List RouteRegion) (initSol : Solution),
      (ruinAll initSol regions).routes.length = initSol.routes.length := by
  intro regions
  induction regions with
  | nil => intro initSol; rfl
  | cons r rest ih =>
    intro initSol
    simp only [ruinAll, List.foldl_cons]
    exact (ih (initSol.ruinRoute r.vehicleIndex r.startPos r.endPos)).trans
      (routes_length_ruinRoute initSol r.vehicleIndex r.startPos r.endPos)

theorem optimizeRegions_routes_length (cc : Solution → Fl) (initSol : Solution)
    (regions : List RouteRegion) :
    (optimizeRegions cc initSol regions).routes.length = initSol.routes.length := by
  have hpres : ∀ e ∈ optimizeFrontier cc initSol regions,
      e.1.routes.length = initSol.routes.length := by
    refine optimizeFrontier_pres cc initSol regions _ ?_ ?_
    · exact ruinAll_routes_length regions initSol
    · intro m hm e he
      rcases mem_roundCandidates.mp he with
        ⟨sol, hsol, stop, _, _, r, _, _, heq⟩
      rcases List.mem_map.mp hsol with ⟨e', he', heq'⟩
      rw [heq]
      rw [routes_length_insertStop]
      rw [← heq']
      exact hm e' he'
  rcases List.mem_map.mp (optimizeRegions_mem cc initSol regions) with ⟨e, he, heq⟩
  rw [← heq]
  exact hpres e he

theorem rrStep_sol_length (cc : Solution → Fl) (closest : List Nat)
    (g : Nat → Nat) (st : RRState) :
    (rrStep cc closest g st).sol.routes.length = st.sol.routes.length := by
  simp only [rrStep]
  split
  · exact optimizeRegions_routes_length cc st.sol _
  · rfl

theorem rrLoop_sol_length (cc : Solution → Fl) (closest : List Nat)
    (g : Nat → Nat) : ∀ (n : Nat) (st : RRState),
    (rrLoop cc closest g n st).sol.routes.length = st.sol.routes.length := by
  intro n
  induction n with
  | zero => intro st; rfl
  | succ n ih =>
    intro st
    simp only [rrLoop]
    rw [rrStep_sol_length]
    exact ih st

/-- C6: both solvers return one route per vehicle: the NearestNeighborSolver's
solution always has `vehicle_count` routes (`vehicle_count = 0` gives zero
routes, `stop_count = 0` gives `vehicle_count` empty routes), and the
RuinAndRecreateSolver — whose initial solver preserves the route count — does
the same. -/
theorem claim6_route_counts {L : Type} (p : Problem L) (router : L → L → ℚ)
    (order : List Nat) (cc : Solution → Fl) (initSolver : Problem L → Solution)
    (iterations : Nat) (g : Nat → Nat)
    (horder : ∀ s, s ∈ order ↔ s < p.stopCount)
    (hinit : ∀ q : Problem L, (initSolver q).routes.length = q.vehicleCount) :
    ((nnSolve p router order).routes.length = p.vehicleCount) ∧
    (p.stopCount = 0 → nnSolve p router order = ⟨List.replicate p.vehicleCount []⟩) ∧
    ((rrSolve cc router initSolver iterations g p).routes.length = p.vehicleCount) ∧
    (p.vehicleCount = 0 → rrSolve cc router initSolver iterations g p = ⟨[]⟩) ∧
    (p.stopCount = 0 →
      rrSolve cc router initSolver iterations g p = ⟨List.replicate p.vehicleCount []⟩) := by
  refine ⟨?_, ?_, ?_, ?_, ?_⟩
  · unfold nnSolve
    split
    · rename_i h
      rw [h]
      rfl
    · rw [nnGo_routes_length]
      simp
  · intro hs
    have hnil : order = [] := by
      rw [List.eq_nil_iff_forall_not_mem]
      intro s hmem
      have := (horder s).mp hmem
      omega
    subst hnil
    unfold nnSolve
    split
    · rename_i h
      rw [h]
      rfl
    · rfl
  · unfold rrSolve
    split_ifs with h1 h2 h3
    · rw [h1]
      rfl
    · simp
    · exact hinit p
    · rw [rrLoop_sol_length]
      exact hinit p
  · intro hv
    unfold rrSolve
    rw [if_pos hv]
  · intro hs
    unfold rrSolve
    split_ifs with h1
    · rw [h1]
      simp
    · rfl

theorem claim6_witness :
    ((nnSolve probTie routerOne [0, 1]).routes.length = probTie.vehicleCount) ∧
    ((rrSolve ccCount routerOne (fun q => ⟨List.replicate q.vehicleCount []⟩)
        2 gZero probTie).routes.length = probTie.vehicleCount) := by
  have h := claim6_route_counts probTie routerOne [0, 1] ccCount
    (fun q => ⟨List.replicate q.vehicleCount []⟩) 2 gZero
    (fun s => by simp [probTie, List.mem_cons]; omega)
    (fun q => by simp)
  exact ⟨h.1, h.2.2.1⟩

/-! ### Stop-count preservation for the ruin-and-recreate loop -/

theorem countStop_insertStop_le (s : Solution) (v pos st t : Nat) :
    (s.insertStop v pos st).countStop t ≤
      s.countStop t + if st = t then 1 else 0 := by
  by_cases h : v < s.routes.length
  · rw [countStop_insertStop s v pos st t h]
  · have hset : s.routes.set v
        ((s.routes.getD v []).take pos ++ st :: (s.routes.getD v []).drop pos) =
        s.routes := List.set_eq_of_length_le (by omega)
    simp only [Solution.insertStop, Solution.countStop, hset]
    exact Nat.le_add_right _ _

theorem ruinAll_countStop_le :
    ∀ (regions : List RouteRegion) (initSol : Solution) (t : Nat),
      (∀ r ∈ regions, r.startPos ≤ r.endPos) →
      (ruinAll initSol regions).countStop t ≤ initSol.countStop t := by
  intro regions
  induction regions with
  | nil => intro initSol t _; exact le_refl _
  | cons r rest ih =>
    intro initSol t hreg
    simp only [ruinAll, List.foldl_cons]
    refine le_trans (ih _ t ?_) ?_
    · intro r' hr'
      exact hreg r' (List.mem_cons_of_mem r hr')
    · exact countStop_ruinRoute_le initSol r.vehicleIndex r.startPos r.endPos t
        (hreg r (List.mem_cons_self r rest))

theorem route_count_le_countStop (s : Solution) (v st : Nat)
    (hv : v < s.routes.length) :
    (s.routes.getD v []).count st ≤ s.countStop st := by
  refine List.single_le_sum (fun x _ => Nat.zero_le x) _ ?_
  exact List.mem_map.mpr ⟨s.routes.getD v [], by
    rw [List.getD_eq_getElem _ _ hv]
    exact List.getElem_mem hv, rfl⟩

theorem allRemoved_countStop_pos (initSol : Solution)
    (regions : List RouteRegion)
    (hreg : ∀ r ∈ regions, r.vehicleIndex < initSol.routes.length ∧
      r.startPos ≤ r.endPos ∧
      r.endPos ≤ (initSol.routes.getD r.vehicleIndex []).length) :
    ∀ st ∈ allRemovedStops regions initSol, 1 ≤ initSol.countStop st := by
  intro st hst
  rcases List.mem_flatMap.mp hst with ⟨r, hr, hmem⟩
  rcases List.mem_map.mp hmem with ⟨i, hi, heq⟩
  obtain ⟨hv, _, hend⟩ := hreg r hr
  have hilt : i < (initSol.routes.getD r.vehicleIndex []).length := by
    have := List.mem_range'_1.mp hi
    omega
  have hroute : st ∈ initSol.routes.getD r.vehicleIndex [] := by
    rw [← heq, List.getD_eq_getElem _ _ hilt]
    exact List.getElem_mem hilt
  have h1 : 1 ≤ (initSol.routes.getD r.vehicleIndex []).count st :=
    List.count_pos_iff.mpr hroute
  exact le_trans h1 (route_count_le_countStop initSol r.vehicleIndex st hv)

theorem optimizeRegions_countStop_le (cc : Solution → Fl) (initSol : Solution)
    (regions : List RouteRegion)
    (hreg : ∀ r ∈ regions, r.vehicleIndex < initSol.routes.length ∧
      r.startPos ≤ r.endPos ∧
      r.endPos ≤ (initSol.routes.getD r.vehicleIndex []).length) :
    ∀ t, (optimizeRegions cc initSol regions).countStop t ≤
      initSol.countStop t := by
  have hpres : ∀ e ∈ optimizeFrontier cc initSol regions,
      ∀ t, e.1.countStop t ≤ initSol.countStop t := by
    refine optimizeFrontier_pres cc initSol regions _ ?_ ?_
    · intro t
      exact ruinAll_countStop_le regions initSol t (fun r hr => (hreg r hr).2.1)
    · intro m hm e he t
      rcases mem_roundCandidates.mp he with
        ⟨sol, hsol, stop, hstop, hhs, r, _, _, heq⟩
      rcases List.mem_map.mp hsol with ⟨e', he', heq'⟩
      have hsolle : ∀ u, sol.countStop u ≤ initSol.countStop u := by
        intro u
        rw [← heq']
        exact hm e' he' u
      rw [heq]
      refine le_trans (countStop_insertStop_le sol r.vehicleIndex r.startPos stop t) ?_
      by_cases hts : stop = t
      · subst hts
        have hzero : sol.countStop stop = 0 := (hasStop_false_iff sol stop).mp hhs
        have hone : 1 ≤ initSol.countStop stop :=
          allRemoved_countStop_pos initSol regions hreg stop hstop
        rw [if_pos rfl]
        omega
      · rw [if_neg hts]
        simpa using hsolle t
  intro t
  rcases List.mem_map.mp (optimizeRegions_mem cc initSol regions) with ⟨e, he, heq⟩
  rw [← heq]
  exact hpres e he t

theorem rrStep_countStop_le (cc : Solution → Fl) (closest : List Nat)
    (g : Nat → Nat) (st : RRState) (t : Nat) :
    (rrStep cc closest g st).sol.countStop t ≤ st.sol.countStop t := by
  simp only [rrStep]
  split
  · refine optimizeRegions_countStop_le cc st.sol _ ?_ t
    intro r hr
    obtain ⟨h1, h2, h3, _⟩ := (chooseRegions_spec st.sol closest g st.k).2.2 r hr
    exact ⟨h1, h2, h3⟩
  · exact le_refl _

theorem rrLoop_countStop_le (cc : Solution → Fl) (closest : List Nat)
    (g : Nat → Nat) : ∀ (n : Nat) (st : RRState) (t : Nat),
    (rrLoop cc closest g n st).sol.countStop t ≤ st.sol.countStop t := by
  intro n
  induction n with
  | zero => intro st t; exact le_refl _
  | succ n ih =>
    intro st t
    simp only [rrLoop]
    exact le_trans (rrStep_countStop_le cc closest g _ t) (ih st t)

/-- C1: the claim as stated fails on the code.  The cost calculator is
universally quantified, and `optimize_regions` seeds the frontier with the
ruined (partial) solution, so a calculator that rewards losing stops makes the
acceptance test adopt a solution missing stops: with one vehicle, two stops,
the stop-counting calculator `ccCount` and one iteration, the solver returns
an empty route and stop 0 appears in no route instead of exactly one. -/
theorem claim1_counterexample :
    0 < probTie.vehicleCount ∧ 0 < probTie.stopCount ∧
    (rrSolve ccCount routerOne initTwo 1 gZero probTie).countStop 0 = 0 :=
  ⟨by decide, by decide, by decide⟩

/-- C1 (amended): for every problem with at least one vehicle and one stop,
every CostCalculator, Router and pseudorandom stream, if the initial solver's
solution assigns every stop at most once and only stops below `stop_count`,
then so does the solution returned by `RuinAndRecreateSolver::solve`: no stop
is ever duplicated and no out-of-range stop appears, though a stop may be
dropped when the calculator assigns lower cost to solutions missing it. -/
theorem claim1_amended {L : Type} (p : Problem L) (cc : Solution → Fl)
    (router : L → L → ℚ) (initSolver : Problem L → Solution)
    (iterations : Nat) (g : Nat → Nat) (hv : 0 < p.vehicleCount)
    (hs : 0 < p.stopCount)
    (hval : ∀ t, (initSolver p).countStop t ≤ 1 ∧
      (p.stopCount ≤ t → (initSolver p).countStop t = 0)) :
    ∀ t, (rrSolve cc router initSolver iterations g p).countStop t ≤ 1 ∧
      (p.stopCount ≤ t →
        (rrSolve cc router initSolver iterations g p).countStop t = 0) := by
  have hle : ∀ t, (rrSolve cc router initSolver iterations g p).countStop t ≤
      (initSolver p).countStop t := by
    intro t
    unfold rrSolve
    split_ifs with h1 h2 h3
    · exact absurd h1 (by omega)
    · exact absurd h2 (by omega)
    · exact le_refl _
    · exact rrLoop_countStop_le cc (closestStops p router) g iterations
        ⟨initSolver p, cc (initSolver p), 0⟩ t
  intro t
  constructor
  · exact le_trans (hle t) (hval t).1
  · intro ht
    have := (hval t).2 ht
    have := hle t
    omega

theorem claim1_witness :
    (rrSolve ccCount routerOne (fun _ => ⟨[[0]]⟩) 3 gZero
      ⟨1, 1, fun i => i, fun _ => 0⟩).countStop 0 ≤ 1 ∧
    (rrSolve ccCount routerOne (fun _ => ⟨[[0]]⟩) 3 gZero
      ⟨1, 1, fun i => i, fun _ => 0⟩).countStop 7 = 0 := by
  have hval : ∀ t, ((fun _ => (⟨[[0]]⟩ : Solution)) (⟨1, 1, fun i => i, fun _ => 0⟩ : Problem Nat)).countStop t ≤ 1 ∧
      ((⟨1, 1, fun i => i, fun _ => 0⟩ : Problem Nat).stopCount ≤ t →
        ((fun _ => (⟨[[0]]⟩ : Solution)) (⟨1, 1, fun i => i, fun _ => 0⟩ : Problem Nat)).countStop t = 0) := by
    intro t
    cases t with
    | zero => exact ⟨by decide, fun h => absurd h (by decide)⟩
    | succ n =>
      have hz : (Solution.mk [[0]]).countStop (n + 1) = 0 := by
        simp [Solution.countStop, List.count_cons, List.count_nil]
      exact ⟨by rw [hz]; omega, fun _ => hz⟩
  have h := claim1_amended (⟨1, 1, fun i => i, fun _ => 0⟩ : Problem Nat) ccCount
    routerOne (fun _ => ⟨[[0]]⟩) 3 gZero (by decide) (by decide) hval
  exact ⟨(h 0).1, (h 7).2 (by decide)⟩
